import Mathlib

/-!
Verification of the bdiff block-based binary differencing library
(src/bdiff.py): signature generation, delta generation and patch
application over byte streams.

Modelling conventions.
Bytes are modelled as natural numbers and byte streams as lists of
natural numbers; an honest file object answers a read of n bytes with
the next min(n, remaining) bytes of its contents.  A misbehaving
(short-reading) source, needed for the block-reader retry logic, is
modelled as a script: a list of successive read results, each truncated
to the requested size.  The external hash functions hashlib.md5 and
hashlib.sha256 are modelled as parameters of the development; theorems
that depend on their behaviour take as hypotheses the facts used about
them (fixed digest width, absence of collisions).  The functions
md5W and sha256W below are concrete collision-free instantiations used
by witnesses.  Multi-byte integers written with struct.pack are
modelled little-endian via pack32; struct.error raised by
struct.unpack on a short buffer is modelled by the structShort error.
-/

namespace Bdiff

/-- Error outcomes of the library.  Each constructor except the last
corresponds to one raise site of src/bdiff.py (the source raises generic
exceptions distinguished by message).  The constructor
truncatedDeltaStream is an error kind named by the specification that
has no raise site in the source; it is included so that claims about it
can be stated. -/
inductive Err where
  | incompleteBlockRead
  | notASigFile
  | unknownSigVersion
  | notADeltaFile
  | unknownDeltaVersion
  | malformedDelta
  | hashMismatch
  | structShort
  | truncatedDeltaStream
deriving DecidableEq

/-- Version constant of the library (module-level VERSION = 2). -/
def VERSION : Nat := 2

/-- ASCII bytes of the signature magic marker bdifsig. -/
def magicSig : List Nat := [98, 100, 105, 102, 115, 105, 103]

/-- ASCII bytes of the delta magic marker bdifdlt. -/
def magicDlt : List Nat := [98, 100, 105, 102, 100, 108, 116]

/-- Little-endian 4-byte encoding, modelling struct.pack of a 4-byte
integer for values in range. -/
def pack32 (v : Nat) : List Nat :=
  [v % 256, v / 256 % 256, v / 65536 % 256, v / 16777216 % 256]

/-- Little-endian decoding of (the first four bytes of) a buffer,
modelling struct.unpack of a 4-byte integer.  Callers check that the
buffer has length 4 first, mirroring struct.error on short buffers. -/
def unpack32 (bs : List Nat) : Nat :=
  bs.getD 0 0 + 256 * bs.getD 1 0 + 65536 * bs.getD 2 0 + 16777216 * bs.getD 3 0

/-- Inner retry loop of the block reader over an honest file object
(read of k bytes consumes and returns the next min(k, remaining)
bytes).  Arguments: target chunk size, bytes accumulated so far, the
remaining file contents, and the retry counter.  Mirrors the while loop
of the source: a read of the missing bytes; an empty result breaks out;
otherwise the bytes are appended, the counter is bumped, and the
operation fails once the counter passes 10. -/
def fillBlockFile (n : Nat) (data t : List Nat) (tries : Nat) :
    Except Err (List Nat × List Nat) :=
  if h1 : data.length < n then
    if h2 : t.take (n - data.length) = [] then
      Except.ok (data, t)
    else if 10 < tries + 1 then
      Except.error Err.incompleteBlockRead
    else
      fillBlockFile n (data ++ t.take (n - data.length)) (t.drop (n - data.length)) (tries + 1)
  else
    Except.ok (data, t)
termination_by t.length
decreasing_by
  have ht : t ≠ [] := by
    intro hnil
    exact h2 (by simp [hnil])
  have : 0 < t.length := List.length_pos.mpr ht
  simp only [List.length_drop]
  omega

/-- Over an honest file the retry loop is immediately satisfied: the
first read either filled the chunk or hit the end of the file. -/
theorem fillBlockFile_take_drop (t : List Nat) (n : Nat) :
    fillBlockFile n (t.take n) (t.drop n) 0 = Except.ok (t.take n, t.drop n) := by
  by_cases h : n ≤ t.length
  · have hlen : (t.take n).length = n := by simp [List.length_take]; omega
    rw [fillBlockFile]
    simp [hlen]
  · have hlen : (t.take n).length = t.length := by simp [List.length_take]; omega
    have hdrop : t.drop n = [] := List.drop_eq_nil_iff.mpr (by omega)
    rw [fillBlockFile]
    by_cases hlt : t.length < n
    · simp [hlen, hlt, hdrop]
    · omega

/-- The block reader over an honest file object: repeatedly read a
chunk of n bytes, run the retry loop to fill it out, and yield it;
stop when a read at a chunk boundary returns nothing. -/
def readBlocksFile (t : List Nat) (n : Nat) : Except Err (List (List Nat)) :=
  if h0 : t.take n = [] then
    Except.ok []
  else
    match h1 : fillBlockFile n (t.take n) (t.drop n) 0 with
    | Except.error e => Except.error e
    | Except.ok (block, t2) =>
      match readBlocksFile t2 n with
      | Except.error e => Except.error e
      | Except.ok rest => Except.ok (block :: rest)
termination_by t.length
decreasing_by
  rw [fillBlockFile_take_drop] at h1
  have hn : n ≠ 0 := by
    intro h
    exact h0 (by simp [h])
  have ht : t ≠ [] := by
    intro h
    exact h0 (by simp [h])
  have : 0 < t.length := List.length_pos.mpr ht
  cases h1
  simp only [List.length_drop]
  omega

/-- Plain chunking of a byte list into pieces of size n (final piece
shorter); the transparent description of the honest block reader. -/
def chunksOf (t : List Nat) (n : Nat) : List (List Nat) :=
  if h : t.take n = [] then [] else t.take n :: chunksOf (t.drop n) n
termination_by t.length
decreasing_by
  have hn : n ≠ 0 := by
    intro hh
    exact h (by simp [hh])
  have ht : t ≠ [] := by
    intro hh
    exact h (by simp [hh])
  have : 0 < t.length := List.length_pos.mpr ht
  simp only [List.length_drop]
  omega

/-- Inner retry loop of the block reader over a misbehaving source,
modelled as a script: a list of successive read results, each result
truncated to the size requested.  A read pops the next script entry;
an exhausted script answers every read with nothing.  Mirrors the
source exactly as fillBlockFile does, with the same retry counter and
failure after the counter passes 10. -/
def fillBlockScript (n : Nat) : List Nat → List (List Nat) → Nat →
    Except Err (List Nat × List (List Nat))
  | data, [], _tries => Except.ok (data, [])
  | data, e :: rest, tries =>
    if data.length < n then
      if e.take (n - data.length) = [] then
        Except.ok (data, rest)
      else if 10 < tries + 1 then
        Except.error Err.incompleteBlockRead
      else
        fillBlockScript n (data ++ e.take (n - data.length)) rest (tries + 1)
    else
      Except.ok (data, e :: rest)

theorem fillBlockScript_script_le :
    ∀ (s : List (List Nat)) (n : Nat) (data : List Nat) (tries : Nat)
      (block : List Nat) (s2 : List (List Nat)),
      fillBlockScript n data s tries = Except.ok (block, s2) → s2.length ≤ s.length := by
  intro s
  induction s with
  | nil =>
    intro n data tries block s2 h
    rw [fillBlockScript] at h
    cases h
    simp
  | cons e rest ih =>
    intro n data tries block s2 h
    rw [fillBlockScript] at h
    by_cases h1 : data.length < n
    · simp only [h1, if_pos] at h
      by_cases h2 : e.take (n - data.length) = []
      · simp only [h2, if_pos] at h
        cases h
        simp
      · simp only [h2, if_neg, not_false_iff] at h
        by_cases h3 : 10 < tries + 1
        · simp [h3] at h
        · simp only [h3, if_neg, not_false_iff] at h
          have := ih n (data ++ e.take (n - data.length)) (tries + 1) block s2 h
          simp only [List.length_cons]
          omega
    · simp only [h1, if_neg, not_false_iff] at h
      cases h
      simp

/-- Outer loop of the block reader over a script source: read a chunk,
stop if it is empty, fill it out with the retry loop, yield it and
continue on the rest of the script. -/
def readBlocksScript (n : Nat) (s : List (List Nat)) : Except Err (List (List Nat)) :=
  match s with
  | [] => Except.ok []
  | e :: rest =>
    if e.take n = [] then
      Except.ok []
    else
      match h1 : fillBlockScript n (e.take n) rest 0 with
      | Except.error err => Except.error err
      | Except.ok (block, s2) =>
        match readBlocksScript n s2 with
        | Except.error err => Except.error err
        | Except.ok bs => Except.ok (block :: bs)
termination_by s.length
decreasing_by
  have := fillBlockScript_script_le rest n (e.take n) 0 block s2 h1
  simp only [List.length_cons]
  omega

/-- The number of consecutive non-empty retry reads a source script
supplies for one chunk: reads are counted while the accumulated data is
still below the target and stop at the first empty read.  This counter
has no cap; it is the yardstick against which the bounded retry budget
of the reader is measured. -/
def retryReads (n : Nat) : List Nat → List (List Nat) → Nat
  | _data, [] => 0
  | data, e :: rest =>
    if data.length < n then
      if e.take (n - data.length) = [] then 0
      else 1 + retryReads n (data ++ e.take (n - data.length)) rest
    else 0

/-- The signature hash table, built from the list of digests read from
the signature stream, keyed by digest and valued by block index
(starting at i).  It models the Python dict insertion loop: a later
assignment to the same key shadows an earlier one, which the
association list realises by placing entries of later blocks in front. -/
def buildTable (ds : List (List Nat)) (i : Nat) : List (List Nat × Nat) :=
  match ds with
  | [] => []
  | d :: rest => buildTable rest (i + 1) ++ [(d, i)]

/-- Dict lookup: the first entry whose key matches.  Together with
buildTable placing later insertions in front, this models Python dict
lookup after duplicate-key overwrites. -/
def dictFind (k : List Nat) : List (List Nat × Nat) → Option Nat
  | [] => none
  | p :: rest => if k = p.1 then some p.2 else dictFind k rest

/-- The signature generator over an honest basis file: the header block
(magic bdif, kind sig, packed version, packed block size) followed by
one digest per basis block.  The generator yields are kept as separate
list elements; the byte stream written to a signature file is their
concatenation. -/
def signatureBlocks (md5 : List Nat → List Nat) (basis : List Nat) (blockSize : Nat) :
    Except Err (List (List Nat)) :=
  match readBlocksFile basis blockSize with
  | Except.error e => Except.error e
  | Except.ok blocks =>
    Except.ok ((magicSig ++ pack32 VERSION ++ pack32 blockSize) :: blocks.map md5)

/-- Instruction emission for one block of the new file: a copy
instruction (tag C, byte 67) when the block digest is in the table, a
literal instruction (tag D, byte 68) for an unmatched full block, and a
short literal (tag E, byte 69) with an explicit length otherwise. -/
def emitInstr (md5 : List Nat → List Nat) (table : List (List Nat × Nat))
    (blockSize : Nat) (b : List Nat) : List Nat :=
  match dictFind (md5 b) table with
  | some idx => 67 :: pack32 idx
  | none =>
    if b.length = blockSize then 68 :: b
    else 69 :: (pack32 b.length ++ b)

/-- The bytes the patch loop appends to the output when it replays the
instruction emitted for block b, against a given basis file. -/
def replayOf (md5 : List Nat → List Nat) (table : List (List Nat × Nat))
    (basis : List Nat) (blockSize : Nat) (b : List Nat) : List Nat :=
  match dictFind (md5 b) table with
  | some idx => (basis.drop (idx * blockSize)).take blockSize
  | none => b

/-- The delta generator: validate the signature header (magic, then a
4-byte version that must unpack to 2), extract the block size bytes,
load the 16-byte digests into the table, then emit one instruction per
new-file block followed by the terminal checksum instruction (tag H,
byte 72) carrying the digest of the bytes streamed from the new file.
The yields are kept as separate list elements; the delta byte stream is
their concatenation. -/
def deltaBlocks (md5 sha : List Nat → List Nat) (sig newf : List Nat) :
    Except Err (List (List Nat)) :=
  if sig.take 7 = magicSig then
    if ((sig.drop 7).take 4).length = 4 then
      if unpack32 ((sig.drop 7).take 4) = 2 then
        if ((sig.drop 11).take 4).length = 4 then
          match readBlocksFile (sig.drop 15) 16 with
          | Except.error e => Except.error e
          | Except.ok sigDigests =>
            match readBlocksFile newf (unpack32 ((sig.drop 11).take 4)) with
            | Except.error e => Except.error e
            | Except.ok newBlocks =>
              Except.ok ((magicDlt ++ pack32 VERSION ++ (sig.drop 11).take 4)
                :: newBlocks.map
                    (emitInstr md5 (buildTable sigDigests 0) (unpack32 ((sig.drop 11).take 4)))
                ++ [72 :: sha newBlocks.flatten])
        else Except.error Err.structShort
      else Except.error Err.unknownSigVersion
    else Except.error Err.structShort
  else Except.error Err.notASigFile

/-- The instruction replay loop of patch.  It consumes the remaining
delta bytes one instruction at a time, keeping the list of yielded data
chunks and the bytes fed to the running checksum; on the terminal tag H
it reads 32 digest bytes and compares, and when the stream runs out the
comparison is against the initial empty target, exactly as in the
source. -/
def patchLoop (sha : List Nat → List Nat) (basis : List Nat) (blockSize : Nat)
    (ds : List Nat) (out : List (List Nat)) (hacc : List Nat) :
    Except Err (List (List Nat)) :=
  match ds with
  | [] => if sha hacc = [] then Except.ok out else Except.error Err.hashMismatch
  | mode :: rest =>
    if mode = 67 then
      if (rest.take 4).length = 4 then
        patchLoop sha basis blockSize (rest.drop 4)
          (out ++ [(basis.drop (unpack32 (rest.take 4) * blockSize)).take blockSize])
          (hacc ++ (basis.drop (unpack32 (rest.take 4) * blockSize)).take blockSize)
      else Except.error Err.structShort
    else if mode = 68 then
      patchLoop sha basis blockSize (rest.drop blockSize)
        (out ++ [rest.take blockSize]) (hacc ++ rest.take blockSize)
    else if mode = 69 then
      if (rest.take 4).length = 4 then
        patchLoop sha basis blockSize (rest.drop (4 + unpack32 (rest.take 4)))
          (out ++ [(rest.drop 4).take (unpack32 (rest.take 4))])
          (hacc ++ (rest.drop 4).take (unpack32 (rest.take 4)))
      else Except.error Err.structShort
    else if mode = 72 then
      if sha hacc = rest.take 32 then Except.ok out else Except.error Err.hashMismatch
    else Except.error Err.malformedDelta
termination_by ds.length
decreasing_by
  all_goals simp only [List.length_cons, List.length_drop]
  all_goals omega

/-- The patch applier: validate the delta header (magic, then a 4-byte
version that must unpack to 2), extract the block size, and run the
replay loop on the remaining bytes. -/
def patchBlocks (sha : List Nat → List Nat) (basis ds : List Nat) :
    Except Err (List (List Nat)) :=
  if ds.take 7 = magicDlt then
    if ((ds.drop 7).take 4).length = 4 then
      if unpack32 ((ds.drop 7).take 4) = 2 then
        if ((ds.drop 11).take 4).length = 4 then
          patchLoop sha basis (unpack32 ((ds.drop 11).take 4)) (ds.drop 15) [] []
        else Except.error Err.structShort
      else Except.error Err.unknownDeltaVersion
    else Except.error Err.structShort
  else Except.error Err.notADeltaFile

/-- Concrete collision-free stand-in for the 16-byte block hash, used
by witnesses: fifteen zero bytes followed by an injective encoding of
the input. -/
def md5W (l : List Nat) : List Nat :=
  List.replicate 15 0 ++ [Encodable.encode l]

/-- Concrete collision-free stand-in for the 32-byte whole-file hash,
used by witnesses. -/
def sha256W (l : List Nat) : List Nat :=
  List.replicate 31 0 ++ [Encodable.encode l]

/-- A delta instruction body that is truncated at an instruction
boundary: a sequence of complete C, D or E instructions ending without
any terminal H instruction. -/
def truncBody (S : Nat) : List Nat → Bool
  | [] => true
  | t :: rest =>
    if t = 67 then decide (4 ≤ rest.length) && truncBody S (rest.drop 4)
    else if t = 68 then decide (S ≤ rest.length) && truncBody S (rest.drop S)
    else if t = 69 then
      decide (4 ≤ rest.length) &&
      decide (4 + unpack32 (rest.take 4) ≤ rest.length) &&
      truncBody S (rest.drop (4 + unpack32 (rest.take 4)))
    else false
termination_by l => l.length
decreasing_by
  all_goals simp only [List.length_cons, List.length_drop]
  all_goals omega

/-- Modelled from the spec: a well-formed delta instruction body per
the wire format, a sequence of complete C, D or E instructions followed
by exactly one terminal H instruction carrying 32 digest bytes, with
the stream ending right after them. -/
def wfBody (S : Nat) : List Nat → Bool
  | [] => false
  | t :: rest =>
    if t = 67 then decide (4 ≤ rest.length) && wfBody S (rest.drop 4)
    else if t = 68 then decide (S ≤ rest.length) && wfBody S (rest.drop S)
    else if t = 69 then
      decide (4 ≤ rest.length) &&
      decide (4 + unpack32 (rest.take 4) ≤ rest.length) &&
      wfBody S (rest.drop (4 + unpack32 (rest.take 4)))
    else if t = 72 then decide (rest.length = 32)
    else false
termination_by l => l.length
decreasing_by
  all_goals simp only [List.length_cons, List.length_drop]
  all_goals omega

/-- Modelled from the spec: a valid delta stream, namely the delta
header (magic bdifdlt and version 2 as written by this implementation)
followed by a well-formed instruction body for the block size carried
in the header. -/
def validDelta (ds : List Nat) : Bool :=
  decide (ds.take 7 = magicDlt) && decide ((ds.drop 7).take 4 = pack32 2)
    && decide (15 ≤ ds.length)
    && wfBody (unpack32 ((ds.drop 11).take 4)) (ds.drop 15)

theorem pack32_length (v : Nat) : (pack32 v).length = 4 := rfl

theorem unpack32_pack32 {v : Nat} (h : v < 4294967296) : unpack32 (pack32 v) = v := by
  simp [pack32, unpack32, List.getD]
  omega

theorem chunksOf_nil (n : Nat) : chunksOf [] n = [] := by
  rw [chunksOf]; simp

theorem chunksOf_zero (t : List Nat) : chunksOf t 0 = [] := by
  rw [chunksOf]; simp

theorem chunksOf_of_ne (t : List Nat) (n : Nat) (h : t.take n ≠ []) :
    chunksOf t n = t.take n :: chunksOf (t.drop n) n := by
  rw [chunksOf]; simp [h]

theorem chunksOf_nil_of_take (t : List Nat) (n : Nat) (h : t.take n = []) :
    chunksOf t n = [] := by
  rw [chunksOf]; simp [h]

theorem readBlocksFile_eq_aux :
    ∀ N t n, (t : List Nat).length ≤ N → readBlocksFile t n = Except.ok (chunksOf t n) := by
  intro N
  induction N with
  | zero =>
    intro t n h
    have ht : t = [] := by
      cases t with
      | nil => rfl
      | cons a l => simp at h
    subst ht
    rw [readBlocksFile, chunksOf]
    simp
  | succ N ih =>
    intro t n hle
    rw [readBlocksFile, chunksOf]
    by_cases h0 : t.take n = []
    · simp [h0]
    · have hn : n ≠ 0 := by
        intro hh
        exact h0 (by simp [hh])
      have ht : t ≠ [] := by
        intro hh
        exact h0 (by simp [hh])
      have hpos : 0 < t.length := List.length_pos.mpr ht
      have hrec : readBlocksFile (t.drop n) n = Except.ok (chunksOf (t.drop n) n) := by
        apply ih
        simp only [List.length_drop]
        omega
      simp only [h0, dif_neg, not_false_iff]
      rw [fillBlockFile_take_drop]
      split
      · next e heq => simp at heq
      · next block t2 heq =>
        cases heq
        rw [hrec]

/-- The honest block reader never fails and produces exactly the
chunking of the file contents. -/
theorem readBlocksFile_eq (t : List Nat) (n : Nat) :
    readBlocksFile t n = Except.ok (chunksOf t n) :=
  readBlocksFile_eq_aux t.length t n le_rfl

/-- Strong-induction helper tailored to the chunk structure. -/
theorem chunksOf_rec_aux (P : List Nat → Nat → Prop)
    (hnil : ∀ t n, t.take n = [] → P t n)
    (hstep : ∀ t n, t.take n ≠ [] → P (t.drop n) n → P t n) :
    ∀ t n, P t n := by
  have : ∀ N t n, (t : List Nat).length ≤ N → P t n := by
    intro N
    induction N with
    | zero =>
      intro t n h
      cases t with
      | nil => exact hnil [] n (by simp)
      | cons a l => simp at h
    | succ N ih =>
      intro t n hle
      by_cases h0 : t.take n = []
      · exact hnil t n h0
      · have hn : n ≠ 0 := by
          intro hh
          exact h0 (by simp [hh])
        have ht : t ≠ [] := by
          intro hh
          exact h0 (by simp [hh])
        have hpos : 0 < t.length := List.length_pos.mpr ht
        apply hstep t n h0
        apply ih
        simp only [List.length_drop]
        omega
  intro t n
  exact this t.length t n le_rfl

theorem chunksOf_flatten_aux :
    ∀ t n, 0 < n → (chunksOf t n).flatten = t := by
  apply chunksOf_rec_aux (fun t n => 0 < n → (chunksOf t n).flatten = t)
  · intro t n h hn
    rw [chunksOf_nil_of_take t n h]
    simp only [List.flatten_nil]
    rcases List.take_eq_nil_iff.mp h with h1 | h1
    · omega
    · exact h1.symm
  · intro t n h ih hn
    rw [chunksOf_of_ne t n h]
    simp only [List.flatten_cons, ih hn]
    exact List.take_append_drop n t

theorem chunksOf_flatten {t : List Nat} {n : Nat} (hn : 0 < n) :
    (chunksOf t n).flatten = t :=
  chunksOf_flatten_aux t n hn

theorem chunksOf_length_le_aux :
    ∀ t n, 0 < n → (chunksOf t n).length ≤ t.length := by
  apply chunksOf_rec_aux (fun t n => 0 < n → (chunksOf t n).length ≤ t.length)
  · intro t n h hn
    rw [chunksOf_nil_of_take t n h]
    simp
  · intro t n h ih hn
    have ht : t ≠ [] := by
      intro hh
      exact h (by simp [hh])
    have hpos : 0 < t.length := List.length_pos.mpr ht
    rw [chunksOf_of_ne t n h]
    simp only [List.length_cons]
    have hd : (t.drop n).length = t.length - n := List.length_drop n t
    have := ih hn
    omega

theorem chunksOf_length_le {t : List Nat} {n : Nat} (hn : 0 < n) :
    (chunksOf t n).length ≤ t.length :=
  chunksOf_length_le_aux t n hn

theorem chunksOf_mem_length_le_aux :
    ∀ t n, ∀ c ∈ chunksOf t n, (c : List Nat).length ≤ n := by
  apply chunksOf_rec_aux (fun t n => ∀ c ∈ chunksOf t n, c.length ≤ n)
  · intro t n h c hc
    rw [chunksOf_nil_of_take t n h] at hc
    simp at hc
  · intro t n h ih c hc
    rw [chunksOf_of_ne t n h] at hc
    rcases List.mem_cons.mp hc with h1 | h1
    · subst h1
      exact List.length_take_le n t
    · exact ih c h1

theorem chunksOf_mem_length_le {t : List Nat} {n : Nat} {c : List Nat}
    (hc : c ∈ chunksOf t n) : c.length ≤ n :=
  chunksOf_mem_length_le_aux t n c hc

theorem chunksOf_mem_ne_nil_aux :
    ∀ t n, ∀ c ∈ chunksOf t n, (c : List Nat) ≠ [] := by
  apply chunksOf_rec_aux (fun t n => ∀ c ∈ chunksOf t n, c ≠ [])
  · intro t n h c hc
    rw [chunksOf_nil_of_take t n h] at hc
    simp at hc
  · intro t n h ih c hc
    rw [chunksOf_of_ne t n h] at hc
    rcases List.mem_cons.mp hc with h1 | h1
    · subst h1
      exact h
    · exact ih c h1

theorem chunksOf_mem_ne_nil {t : List Nat} {n : Nat} {c : List Nat}
    (hc : c ∈ chunksOf t n) : c ≠ [] :=
  chunksOf_mem_ne_nil_aux t n c hc

theorem chunksOf_dropLast_length_aux :
    ∀ t n, ∀ c ∈ (chunksOf t n).dropLast, (c : List Nat).length = n := by
  apply chunksOf_rec_aux (fun t n => ∀ c ∈ (chunksOf t n).dropLast, c.length = n)
  · intro t n h c hc
    rw [chunksOf_nil_of_take t n h] at hc
    simp at hc
  · intro t n h ih c hc
    rw [chunksOf_of_ne t n h] at hc
    by_cases hrest : chunksOf (t.drop n) n = []
    · rw [hrest] at hc
      simp at hc
    · rw [List.dropLast_cons_of_ne_nil hrest] at hc
      rcases List.mem_cons.mp hc with h1 | h1
      · subst h1
        have hdrop : t.drop n ≠ [] := by
          intro hh
          apply hrest
          rw [chunksOf_nil_of_take (t.drop n) n (by simp [hh])]
        have hlt : ¬ t.length ≤ n := fun hle => hdrop (List.drop_eq_nil_iff.mpr hle)
        simp [List.length_take]
        omega
      · exact ih c h1

theorem chunksOf_dropLast_length {t : List Nat} {n : Nat} {c : List Nat}
    (hc : c ∈ (chunksOf t n).dropLast) : c.length = n :=
  chunksOf_dropLast_length_aux t n c hc

theorem fillBlockScript_error_iff_aux :
    ∀ (s : List (List Nat)) (n : Nat) (data : List Nat) (tries : Nat), tries ≤ 10 →
      (fillBlockScript n data s tries = Except.error Err.incompleteBlockRead ↔
        11 - tries ≤ retryReads n data s) := by
  intro s
  induction s with
  | nil =>
    intro n data tries htr
    rw [fillBlockScript, retryReads]
    constructor
    · intro h
      simp at h
    · intro h
      omega
  | cons e rest ih =>
    intro n data tries htr
    rw [fillBlockScript, retryReads]
    by_cases h1 : data.length < n
    · simp only [h1, if_pos]
      by_cases h2 : e.take (n - data.length) = []
      · simp only [h2, if_pos]
        constructor
        · intro h
          simp at h
        · intro h
          omega
      · simp only [h2, if_neg, not_false_iff]
        by_cases h3 : 10 < tries + 1
        · simp only [h3, if_pos]
          constructor
          · intro _
            have : retryReads n (data ++ e.take (n - data.length)) rest ≥ 0 := Nat.zero_le _
            omega
          · intro _
            trivial
        · simp only [h3, if_neg, not_false_iff]
          rw [ih n (data ++ e.take (n - data.length)) (tries + 1) (by omega)]
          omega
    · simp only [h1, if_neg, not_false_iff]
      constructor
      · intro h
        simp at h
      · intro h
        omega

theorem chunksOf_getD_aux :
    ∀ t n, ∀ j, j < (chunksOf t n).length →
      (chunksOf t n).getD j [] = (t.drop (j * n)).take n := by
  apply chunksOf_rec_aux
    (fun t n => ∀ j, j < (chunksOf t n).length →
      (chunksOf t n).getD j [] = (t.drop (j * n)).take n)
  · intro t n h j hj
    rw [chunksOf_nil_of_take t n h] at hj
    simp at hj
  · intro t n h ih j hj
    rw [chunksOf_of_ne t n h] at hj ⊢
    cases j with
    | zero => simp
    | succ j =>
      simp only [List.getD_cons_succ]
      simp only [List.length_cons, Nat.succ_lt_succ_iff] at hj
      rw [ih j hj]
      rw [List.drop_drop]
      congr 2
      ring_nf

theorem chunksOf_getD {t : List Nat} {n : Nat} {j : Nat}
    (hj : j < (chunksOf t n).length) :
    (chunksOf t n).getD j [] = (t.drop (j * n)).take n :=
  chunksOf_getD_aux t n j hj

/-- Chunking a concatenation of uniformly sized non-empty pieces
recovers the pieces. -/
theorem chunksOf_flatten_uniform {L : List (List Nat)} {k : Nat} (hk : 0 < k)
    (hL : ∀ d ∈ L, d.length = k) : chunksOf L.flatten k = L := by
  induction L with
  | nil => simp [chunksOf_nil]
  | cons d L ih =>
    have hd : d.length = k := hL d (List.mem_cons_self d L)
    have hdn : d ≠ [] := by
      intro hh
      rw [hh] at hd
      simp at hd
      omega
    simp only [List.flatten_cons]
    have htake : (d ++ L.flatten).take k = d := List.take_left' hd
    have hdrop : (d ++ L.flatten).drop k = L.flatten := List.drop_left' hd
    rw [chunksOf_of_ne]
    · rw [htake, hdrop, ih (fun x hx => hL x (List.mem_cons_of_mem d hx))]
    · rw [htake]
      exact hdn

theorem dictFind_append_of_some {k : List Nat} {l1 l2 : List (List Nat × Nat)} {v : Nat}
    (h : dictFind k l1 = some v) : dictFind k (l1 ++ l2) = some v := by
  induction l1 with
  | nil => rw [dictFind] at h; cases h
  | cons p rest ih =>
    simp only [List.cons_append]
    rw [dictFind] at h ⊢
    by_cases hk : k = p.1
    · simpa [hk] using h
    · rw [if_neg hk] at h ⊢
      exact ih h

theorem dictFind_append_of_none {k : List Nat} {l1 l2 : List (List Nat × Nat)}
    (h : dictFind k l1 = none) : dictFind k (l1 ++ l2) = dictFind k l2 := by
  induction l1 with
  | nil => simp
  | cons p rest ih =>
    simp only [List.cons_append]
    rw [dictFind] at h ⊢
    by_cases hk : k = p.1
    · simp [hk] at h
    · rw [if_neg hk] at h ⊢
      exact ih h

/-- Soundness of the table: a successful lookup points at an index
whose digest is the key. -/
theorem buildTable_find_some :
    ∀ (ds : List (List Nat)) (i : Nat) (k : List Nat) (v : Nat),
      dictFind k (buildTable ds i) = some v →
      ∃ j, j < ds.length ∧ v = i + j ∧ ds.getD j [] = k := by
  intro ds
  induction ds with
  | nil =>
    intro i k v h
    rw [buildTable, dictFind] at h
    cases h
  | cons d rest ih =>
    intro i k v h
    rw [buildTable] at h
    cases hfind : dictFind k (buildTable rest (i + 1)) with
    | some v2 =>
      rw [dictFind_append_of_some hfind] at h
      have hv2 : v2 = v := by injection h
      obtain ⟨j, hj, hv, hk⟩ := ih (i + 1) k v2 hfind
      exact ⟨j + 1, by simpa using hj, by omega, by simpa using hk⟩
    | none =>
      rw [dictFind_append_of_none hfind] at h
      rw [dictFind] at h
      by_cases hk : k = d
      · simp only [hk, if_pos] at h
        cases h
        exact ⟨0, by simp, by omega, by simpa using hk.symm⟩
      · simp only [hk, if_neg, not_false_iff] at h
        rw [dictFind] at h
        cases h

/-- Completeness of the table: a failed lookup means no digest equals
the key. -/
theorem buildTable_find_none :
    ∀ (ds : List (List Nat)) (i : Nat) (k : List Nat),
      dictFind k (buildTable ds i) = none →
      ∀ j, j < ds.length → ds.getD j [] ≠ k := by
  intro ds
  induction ds with
  | nil =>
    intro i k _h j hj
    simp at hj
  | cons d rest ih =>
    intro i k h j hj
    rw [buildTable] at h
    cases hfind : dictFind k (buildTable rest (i + 1)) with
    | some v2 => rw [dictFind_append_of_some hfind] at h; cases h
    | none =>
      rw [dictFind_append_of_none hfind] at h
      rw [dictFind] at h
      by_cases hk : k = d
      · simp [hk] at h
      · cases j with
        | zero =>
          intro hc
          exact hk (by simpa using hc.symm)
        | succ j =>
          simp only [List.length_cons, Nat.succ_lt_succ_iff] at hj
          simpa using ih (i + 1) k hfind j hj

/-- The dict realises last-occurrence-wins: if index j holds the key
and no later index does, lookup returns i + j. -/
theorem buildTable_find_last :
    ∀ (ds : List (List Nat)) (i : Nat) (k : List Nat) (j : Nat),
      j < ds.length → ds.getD j [] = k →
      (∀ j2, j < j2 → j2 < ds.length → ds.getD j2 [] ≠ k) →
      dictFind k (buildTable ds i) = some (i + j) := by
  intro ds
  induction ds with
  | nil =>
    intro i k j hj
    simp at hj
  | cons d rest ih =>
    intro i k j hj hget hlast
    rw [buildTable]
    cases j with
    | zero =>
      have hnone : dictFind k (buildTable rest (i + 1)) = none := by
        cases hfind : dictFind k (buildTable rest (i + 1)) with
        | none => rfl
        | some v2 =>
          obtain ⟨j2, hj2, _hv, hk2⟩ := buildTable_find_some rest (i + 1) k v2 hfind
          exact absurd hk2 (by
            have := hlast (j2 + 1) (by omega) (by simpa using hj2)
            simpa using this)
      rw [dictFind_append_of_none hnone]
      rw [dictFind]
      have : k = d := by simpa using hget.symm
      simp [this]
    | succ j =>
      simp only [List.length_cons, Nat.succ_lt_succ_iff] at hj
      have hget2 : rest.getD j [] = k := by simpa using hget
      have hlast2 : ∀ j2, j < j2 → j2 < rest.length → rest.getD j2 [] ≠ k := by
        intro j2 hgt hlt
        have := hlast (j2 + 1) (by omega) (by simpa using hlt)
        simpa using this
      have := ih (i + 1) k j hj hget2 hlast2
      rw [dictFind_append_of_some this]
      congr 1
      omega

/-- A successful lookup in a table built from index 0 is bounded by the
number of digests. -/
theorem buildTable_find_lt {ds : List (List Nat)} {k : List Nat} {v : Nat}
    (h : dictFind k (buildTable ds 0) = some v) : v < ds.length := by
  obtain ⟨j, hj, hv, _⟩ := buildTable_find_some ds 0 k v h
  omega

theorem headerSplit (a b c rest : List Nat)
    (ha : a.length = 7) (hb : b.length = 4) (hc : c.length = 4) :
    (a ++ b ++ c ++ rest).take 7 = a
    ∧ ((a ++ b ++ c ++ rest).drop 7).take 4 = b
    ∧ ((a ++ b ++ c ++ rest).drop 11).take 4 = c
    ∧ (a ++ b ++ c ++ rest).drop 15 = rest := by
  have h1 : a ++ b ++ c ++ rest = a ++ (b ++ (c ++ rest)) := by
    simp [List.append_assoc]
  have h2 : a ++ b ++ c ++ rest = (a ++ b) ++ (c ++ rest) := by
    simp [List.append_assoc]
  have h3 : a ++ b ++ c ++ rest = (a ++ b ++ c) ++ rest := rfl
  refine ⟨?_, ?_, ?_, ?_⟩
  · rw [h1]
    exact List.take_left' ha
  · rw [h1, List.drop_left' ha]
    exact List.take_left' hb
  · rw [h2, List.drop_left' (by simp [ha, hb])]
    exact List.take_left' hc
  · rw [h3]
    exact List.drop_left' (by simp [ha, hb, hc])

/-- The signature generator never fails over an honest basis file and
produces the header block followed by the per-chunk digests. -/
theorem signatureBlocks_eq (md5 : List Nat → List Nat) (basis : List Nat) (blockSize : Nat) :
    signatureBlocks md5 basis blockSize =
      Except.ok ((magicSig ++ pack32 VERSION ++ pack32 blockSize)
        :: (chunksOf basis blockSize).map md5) := by
  rw [signatureBlocks, readBlocksFile_eq]

/-- Running the delta generator on a well-formed signature stream:
header parse succeeds, the 16-byte digests are recovered, and the
output is the delta header block, one instruction per chunk of the new
file and the terminal checksum block. -/
theorem deltaBlocks_produced (md5 sha : List Nat → List Nat)
    (digests : List (List Nat)) (S : Nat) (newf : List Nat)
    (h16 : ∀ d ∈ digests, d.length = 16) (hS : S < 4294967296) :
    deltaBlocks md5 sha (magicSig ++ pack32 2 ++ pack32 S ++ digests.flatten) newf =
      Except.ok ((magicDlt ++ pack32 2 ++ pack32 S)
        :: (chunksOf newf S).map (emitInstr md5 (buildTable digests 0) S)
        ++ [72 :: sha (chunksOf newf S).flatten]) := by
  obtain ⟨ht7, htv, htc, htr⟩ :=
    headerSplit magicSig (pack32 2) (pack32 S) digests.flatten rfl rfl rfl
  rw [deltaBlocks]
  rw [ht7, htv, htc, htr]
  have hu2 : unpack32 (pack32 2) = 2 := unpack32_pack32 (by norm_num)
  have huS : unpack32 (pack32 S) = S := unpack32_pack32 hS
  rw [if_pos rfl, if_pos (pack32_length 2), if_pos (by rw [hu2]), if_pos (pack32_length S)]
  rw [readBlocksFile_eq, chunksOf_flatten_uniform (by norm_num) h16]
  rw [huS, readBlocksFile_eq]
  rfl

/-- Replaying the emitted instruction stream: the patch loop consumes
each emitted instruction exactly, appends the replay bytes for it, and
finishes at the terminal checksum comparison. -/
theorem patchLoop_replay (md5 sha : List Nat → List Nat) (basis : List Nat) (S : Nat)
    (table : List (List Nat × Nat))
    (htb : ∀ k v, dictFind k table = some v → v < 4294967296) :
    ∀ (bs : List (List Nat)), (∀ b ∈ bs, b.length < 4294967296) →
    ∀ (out : List (List Nat)) (hacc tailB : List Nat),
      patchLoop sha basis S ((bs.map (emitInstr md5 table S)).flatten ++ 72 :: tailB) out hacc =
        if sha (hacc ++ (bs.map (replayOf md5 table basis S)).flatten) = tailB.take 32
        then Except.ok (out ++ bs.map (replayOf md5 table basis S))
        else Except.error Err.hashMismatch := by
  intro bs
  induction bs with
  | nil =>
    intro _hlen out hacc tailB
    simp only [List.map_nil, List.flatten_nil, List.nil_append, List.append_nil]
    rw [patchLoop]
    norm_num
  | cons b bs ih =>
    intro hlen out hacc tailB
    have hbl : b.length < 4294967296 := hlen b (List.mem_cons_self b bs)
    have hrest : ∀ x ∈ bs, (x : List Nat).length < 4294967296 :=
      fun x hx => hlen x (List.mem_cons_of_mem b hx)
    simp only [List.map_cons, List.flatten_cons]
    cases hfind : dictFind (md5 b) table with
    | some idx =>
      have hidx : idx < 4294967296 := htb (md5 b) idx hfind
      have hemit : emitInstr md5 table S b = 67 :: pack32 idx := by
        rw [emitInstr, hfind]
      have hreplay : replayOf md5 table basis S b = (basis.drop (idx * S)).take S := by
        rw [replayOf, hfind]
      rw [hemit, hreplay]
      have hshape :
          (67 :: pack32 idx) ++ ((bs.map (emitInstr md5 table S)).flatten ++ 72 :: tailB) =
          67 :: (pack32 idx ++ ((bs.map (emitInstr md5 table S)).flatten ++ 72 :: tailB)) := rfl
      rw [List.append_assoc, hshape, patchLoop]
      rw [List.take_left' (pack32_length idx), List.drop_left' (pack32_length idx)]
      rw [if_pos rfl, if_pos (pack32_length idx), unpack32_pack32 hidx]
      rw [ih hrest]
      simp [List.append_assoc]
    | none =>
      by_cases hfull : b.length = S
      · have hemit : emitInstr md5 table S b = 68 :: b := by
          rw [emitInstr, hfind, if_pos hfull]
        have hreplay : replayOf md5 table basis S b = b := by
          rw [replayOf, hfind]
        rw [hemit, hreplay]
        have hshape :
            (68 :: b) ++ ((bs.map (emitInstr md5 table S)).flatten ++ 72 :: tailB) =
            68 :: (b ++ ((bs.map (emitInstr md5 table S)).flatten ++ 72 :: tailB)) := rfl
        rw [List.append_assoc, hshape, patchLoop]
        rw [if_neg (by norm_num), if_pos rfl]
        rw [List.take_left' hfull, List.drop_left' hfull]
        rw [ih hrest]
        simp [List.append_assoc]
      · have hemit : emitInstr md5 table S b = 69 :: (pack32 b.length ++ b) := by
          rw [emitInstr, hfind, if_neg hfull]
        have hreplay : replayOf md5 table basis S b = b := by
          rw [replayOf, hfind]
        rw [hemit, hreplay]
        have hshape :
            (69 :: (pack32 b.length ++ b)) ++
              ((bs.map (emitInstr md5 table S)).flatten ++ 72 :: tailB) =
            69 :: ((pack32 b.length ++ b) ++
              ((bs.map (emitInstr md5 table S)).flatten ++ 72 :: tailB)) := rfl
        have h4take :
            ((pack32 b.length ++ b) ++
              ((bs.map (emitInstr md5 table S)).flatten ++ 72 :: tailB)).take 4 =
            pack32 b.length := by
          rw [List.append_assoc]
          exact List.take_left' (pack32_length b.length)
        have h4drop :
            ((pack32 b.length ++ b) ++
              ((bs.map (emitInstr md5 table S)).flatten ++ 72 :: tailB)).drop 4 =
            b ++ ((bs.map (emitInstr md5 table S)).flatten ++ 72 :: tailB) := by
          rw [List.append_assoc]
          exact List.drop_left' (pack32_length b.length)
        have hLdrop :
            ((pack32 b.length ++ b) ++
              ((bs.map (emitInstr md5 table S)).flatten ++ 72 :: tailB)).drop
                (4 + b.length) =
            (bs.map (emitInstr md5 table S)).flatten ++ 72 :: tailB :=
          List.drop_left' (by simp [pack32_length])
        rw [List.append_assoc, hshape, patchLoop]
        rw [if_neg (by norm_num), if_neg (by norm_num), if_pos rfl, h4take]
        rw [if_pos (pack32_length b.length), unpack32_pack32 hbl, h4drop, hLdrop]
        rw [List.take_left' rfl]
        rw [ih hrest]
        simp [List.append_assoc]

/-- Patching the byte stream of a produced delta against an arbitrary
basis: the header parses back, every instruction is consumed exactly,
and the outcome is decided by the terminal checksum comparison over the
replayed bytes. -/
theorem patchBlocks_produced (md5 sha : List Nat → List Nat) (basis : List Nat) (S : Nat)
    (hS : S < 4294967296) (table : List (List Nat × Nat))
    (htb : ∀ k v, dictFind k table = some v → v < 4294967296)
    (bs : List (List Nat)) (hlen : ∀ b ∈ bs, b.length < 4294967296) (digest : List Nat) :
    patchBlocks sha basis
      (((magicDlt ++ pack32 2 ++ pack32 S)
        :: bs.map (emitInstr md5 table S) ++ [72 :: digest]).flatten) =
      if sha ((bs.map (replayOf md5 table basis S)).flatten) = digest.take 32
      then Except.ok (bs.map (replayOf md5 table basis S))
      else Except.error Err.hashMismatch := by
  have hflat :
      ((magicDlt ++ pack32 2 ++ pack32 S)
        :: bs.map (emitInstr md5 table S) ++ [72 :: digest]).flatten =
      magicDlt ++ pack32 2 ++ pack32 S ++
        ((bs.map (emitInstr md5 table S)).flatten ++ 72 :: digest) := by
    simp [List.append_assoc]
  rw [hflat]
  obtain ⟨ht7, htv, htc, htr⟩ :=
    headerSplit magicDlt (pack32 2) (pack32 S)
      ((bs.map (emitInstr md5 table S)).flatten ++ 72 :: digest) rfl rfl rfl
  rw [patchBlocks, ht7, htv, htc, htr]
  have hu2 : unpack32 (pack32 2) = 2 := unpack32_pack32 (by norm_num)
  have huS : unpack32 (pack32 S) = S := unpack32_pack32 hS
  rw [if_pos rfl, if_pos (pack32_length 2), if_pos (by rw [hu2]), if_pos (pack32_length S)]
  rw [huS]
  rw [patchLoop_replay md5 sha basis S table htb bs hlen [] [] digest]
  simp

theorem map_self {α : Type} {l : List α} {f : α → α} (h : ∀ a ∈ l, f a = a) :
    l.map f = l := by
  induction l with
  | nil => rfl
  | cons a l ih =>
    rw [List.map_cons, h a (List.mem_cons_self a l),
      ih (fun x hx => h x (List.mem_cons_of_mem a hx))]

/-- Replaying against the very file the signature was built from
reproduces each chunk, provided the block hash is collision-free. -/
theorem replayOf_self (md5 : List Nat → List Nat) (hinj : Function.Injective md5)
    (F : List Nat) (S : Nat) (b : List Nat) (_hb : b ∈ chunksOf F S) :
    replayOf md5 (buildTable ((chunksOf F S).map md5) 0) F S b = b := by
  rw [replayOf]
  cases hfind : dictFind (md5 b) (buildTable ((chunksOf F S).map md5) 0) with
  | none => rfl
  | some idx =>
    obtain ⟨j, hj, hv, hk⟩ :=
      buildTable_find_some ((chunksOf F S).map md5) 0 (md5 b) idx hfind
    have hjlen : j < (chunksOf F S).length := by simpa using hj
    have hkj : ((chunksOf F S).map md5).getD j [] = md5 ((chunksOf F S).getD j []) := by
      rw [List.getD_eq_getElem?_getD, List.getD_eq_getElem?_getD]
      rw [List.getElem?_map]
      rw [List.getElem?_eq_getElem hjlen]
      simp
    have hmd : md5 ((chunksOf F S).getD j []) = md5 b := by
      rw [← hkj]
      exact hk
    have hbj : (chunksOf F S).getD j [] = b := hinj hmd
    have hchunk : (chunksOf F S).getD j [] = (F.drop (j * S)).take S := chunksOf_getD hjlen
    have hij : idx = j := by omega
    rw [hij]
    show (F.drop (j * S)).take S = b
    rw [← hchunk, hbj]

theorem md5W_length : ∀ l, (md5W l).length = 16 := by
  intro l
  simp [md5W]

theorem sha256W_length : ∀ l, (sha256W l).length = 32 := by
  intro l
  simp [sha256W]

theorem md5W_injective : Function.Injective md5W := by
  intro a b h
  simp only [md5W, List.append_cancel_left_eq, List.cons.injEq, and_true] at h
  exact Encodable.encode_injective h

theorem sha256W_injective : Function.Injective sha256W := by
  intro a b h
  simp only [sha256W, List.append_cancel_left_eq, List.cons.injEq, and_true] at h
  exact Encodable.encode_injective h

theorem except_bind_ok {α β : Type} (a : α) (f : α → Except Err β) :
    Except.bind (Except.ok a) f = f a := rfl

/-- C1 helper: the full pipeline over one file, as one composed
expression. -/
theorem roundtrip_pipeline (md5 sha : List Nat → List Nat)
    (h16 : ∀ x, (md5 x).length = 16) (h32 : ∀ x, (sha x).length = 32)
    (hinj : Function.Injective md5)
    (F : List Nat) (S : Nat) (hS : 0 < S) (hS31 : S < 2147483648)
    (hF : F.length < 2147483648) :
    Except.bind
      (Except.bind (signatureBlocks md5 F S)
        (fun sg => deltaBlocks md5 sha sg.flatten F))
      (fun dsB => Except.map (fun out => List.flatten out) (patchBlocks sha F dsB.flatten)) =
    Except.ok F := by
  rw [signatureBlocks_eq, except_bind_ok]
  have hsg : ((magicSig ++ pack32 VERSION ++ pack32 S) :: (chunksOf F S).map md5).flatten =
      magicSig ++ pack32 2 ++ pack32 S ++ ((chunksOf F S).map md5).flatten := by
    simp [VERSION, List.append_assoc]
  rw [hsg]
  rw [deltaBlocks_produced md5 sha ((chunksOf F S).map md5) S F
    (fun d hd => by
      obtain ⟨c, _hc, hrfl⟩ := List.mem_map.mp hd
      rw [← hrfl]
      exact h16 c)
    (by omega)]
  rw [except_bind_ok]
  rw [patchBlocks_produced md5 sha F S (by omega) (buildTable ((chunksOf F S).map md5) 0)
    (fun k v hv => by
      have hlt := buildTable_find_lt hv
      have hle : (chunksOf F S).length ≤ F.length := chunksOf_length_le hS
      simp only [List.length_map] at hlt
      omega)
    (chunksOf F S)
    (fun b hb => by
      have := chunksOf_mem_length_le hb
      omega)
    (sha (chunksOf F S).flatten)]
  have hmap : (chunksOf F S).map (replayOf md5 (buildTable ((chunksOf F S).map md5) 0) F S)
      = chunksOf F S :=
    map_self (fun b hb => replayOf_self md5 hinj F S b hb)
  rw [hmap]
  rw [List.take_of_length_le (le_of_eq (h32 _))]
  rw [if_pos rfl]
  rw [Except.map]
  rw [chunksOf_flatten hS]

/-- C1: Round-trip.  For every finite byte sequence F and block size
S > 0 (within the 4-byte signed range the wire format can carry, and
assuming the block hash is collision-free), the pipeline signature,
delta, patch succeeds with no error and the concatenation of the
output chunks of patch equals F byte for byte. -/
theorem bdiff_roundtrip (md5 sha : List Nat → List Nat)
    (h16 : ∀ x, (md5 x).length = 16) (h32 : ∀ x, (sha x).length = 32)
    (hinj : Function.Injective md5)
    (F : List Nat) (S : Nat) (hS : 0 < S) (hS31 : S < 2147483648)
    (hF : F.length < 2147483648) :
    Except.bind
      (Except.bind (signatureBlocks md5 F S)
        (fun sg => deltaBlocks md5 sha sg.flatten F))
      (fun dsB => Except.map (fun out => List.flatten out) (patchBlocks sha F dsB.flatten)) =
    Except.ok F :=
  roundtrip_pipeline md5 sha h16 h32 hinj F S hS hS31 hF

theorem bdiff_roundtrip_witness :
    Except.bind
      (Except.bind (signatureBlocks md5W [1, 2, 3] 2)
        (fun sg => deltaBlocks md5W sha256W sg.flatten [1, 2, 3]))
      (fun dsB =>
        Except.map (fun out => List.flatten out) (patchBlocks sha256W [1, 2, 3] dsB.flatten)) =
    Except.ok [1, 2, 3] :=
  bdiff_roundtrip md5W sha256W md5W_length sha256W_length md5W_injective
    [1, 2, 3] 2 (by norm_num) (by norm_num) (by norm_num)

/-- C2: Tamper detection gate.  A delta produced from file A (from a
signature of some basis Bs at block size S > 0), patched against an
arbitrary basis stream B, either yields output byte-identical to A or
fails with the hash-mismatch error; assuming the whole-file hash is
collision-free it never succeeds with different bytes, because the
terminal checksum comparison is the last gate. -/
theorem patch_tamper_gate (md5 sha : List Nat → List Nat)
    (h16 : ∀ x, (md5 x).length = 16) (h32 : ∀ x, (sha x).length = 32)
    (hshainj : Function.Injective sha)
    (Bs A B : List Nat) (S : Nat) (hS : 0 < S) (hS31 : S < 2147483648)
    (hBs : Bs.length < 2147483648)
    (dsB : List (List Nat))
    (hds : Except.bind (signatureBlocks md5 Bs S)
      (fun sg => deltaBlocks md5 sha sg.flatten A) = Except.ok dsB) :
    Except.map (fun out => List.flatten out) (patchBlocks sha B dsB.flatten) = Except.ok A
    ∨ patchBlocks sha B dsB.flatten = Except.error Err.hashMismatch := by
  rw [signatureBlocks_eq, except_bind_ok] at hds
  have hsg : ((magicSig ++ pack32 VERSION ++ pack32 S) :: (chunksOf Bs S).map md5).flatten =
      magicSig ++ pack32 2 ++ pack32 S ++ ((chunksOf Bs S).map md5).flatten := by
    simp [VERSION, List.append_assoc]
  rw [hsg] at hds
  rw [deltaBlocks_produced md5 sha ((chunksOf Bs S).map md5) S A
    (fun d hd => by
      obtain ⟨c, _hc, hrfl⟩ := List.mem_map.mp hd
      rw [← hrfl]
      exact h16 c)
    (by omega)] at hds
  cases hds
  rw [patchBlocks_produced md5 sha B S (by omega) (buildTable ((chunksOf Bs S).map md5) 0)
    (fun k v hv => by
      have hlt := buildTable_find_lt hv
      have hle : (chunksOf Bs S).length ≤ Bs.length := chunksOf_length_le hS
      simp only [List.length_map] at hlt
      omega)
    (chunksOf A S)
    (fun b hb => by
      have := chunksOf_mem_length_le hb
      omega)
    (sha (chunksOf A S).flatten)]
  by_cases hcond :
      sha ((chunksOf A S).map
        (replayOf md5 (buildTable ((chunksOf Bs S).map md5) 0) B S)).flatten =
      (sha (chunksOf A S).flatten).take 32
  · left
    rw [if_pos hcond, Except.map]
    rw [List.take_of_length_le (le_of_eq (h32 _))] at hcond
    have hout := hshainj hcond
    rw [hout, chunksOf_flatten hS]
  · right
    rw [if_neg hcond]

theorem chunksOf_one (a : Nat) : chunksOf [a] 1 = [[a]] := by
  rw [chunksOf_of_ne]
  · simp [chunksOf_nil]
  · simp

theorem patch_tamper_gate_witness :
    Except.map (fun out => List.flatten out)
      (patchBlocks sha256W [9]
        ([magicDlt ++ pack32 2 ++ pack32 1, [68, 2], 72 :: sha256W [2]].flatten)) =
      Except.ok [2]
    ∨ patchBlocks sha256W [9]
        ([magicDlt ++ pack32 2 ++ pack32 1, [68, 2], 72 :: sha256W [2]].flatten) =
      Except.error Err.hashMismatch :=
  patch_tamper_gate md5W sha256W md5W_length sha256W_length sha256W_injective
    [1] [2] [9] 1 (by norm_num) (by norm_num) (by norm_num)
    [magicDlt ++ pack32 2 ++ pack32 1, [68, 2], 72 :: sha256W [2]]
    (by
      rw [signatureBlocks_eq, except_bind_ok]
      have hc1 : chunksOf [1] 1 = [[1]] := chunksOf_one 1
      rw [hc1]
      have hsg : ((magicSig ++ pack32 VERSION ++ pack32 1) :: ([[1]] : List (List Nat)).map md5W).flatten
          = magicSig ++ pack32 2 ++ pack32 1 ++ (List.flatten [md5W [1]]) := by
        simp [VERSION, List.append_assoc]
      rw [hsg]
      rw [deltaBlocks_produced md5W sha256W [md5W [1]] 1 [2]
        (by
          intro d hd
          simp only [List.mem_singleton] at hd
          rw [hd]
          exact md5W_length [1])
        (by norm_num)]
      have hc2 : chunksOf [2] 1 = [[2]] := chunksOf_one 2
      rw [hc2]
      have hne : md5W [2] ≠ md5W [1] := by
        intro h
        have := md5W_injective h
        simp at this
      have hemit : emitInstr md5W (buildTable [md5W [1]] 0) 1 [2] = [68, 2] := by
        rw [emitInstr, buildTable, buildTable]
        simp only [List.nil_append]
        rw [dictFind, if_neg (by simpa using hne), dictFind]
        simp
      simp [hemit])

theorem emitInstr_head (md5 : List Nat → List Nat) (table : List (List Nat × Nat))
    (S : Nat) (b : List Nat) :
    (emitInstr md5 table S b).head? = some 67
    ∨ (emitInstr md5 table S b).head? = some 68
    ∨ (emitInstr md5 table S b).head? = some 69 := by
  rw [emitInstr]
  cases dictFind (md5 b) table with
  | some idx => left; rfl
  | none =>
    by_cases h : b.length = S
    · right; left; simp [h]
    · right; right; simp [h]

theorem emitInstr_empty_head (md5 : List Nat → List Nat) (S : Nat) (b : List Nat) :
    (emitInstr md5 [] S b).head? = some 68 ∨ (emitInstr md5 [] S b).head? = some 69 := by
  rw [emitInstr, dictFind]
  by_cases h : b.length = S
  · left; simp [h]
  · right; simp [h]

/-- C6: Delta stream shape and checksum value.  For every signature
stream accepted by delta (header parses, version 2) whose block size
field is positive, and every new file, the produced block sequence is
the delta header, then instructions each tagged C, D or E, then exactly
one terminal checksum block tagged H, last, whose 32-byte digest is the
hash of the entire new file as streamed. -/
theorem delta_stream_shape (md5 sha : List Nat → List Nat)
    (h32 : ∀ x, (sha x).length = 32)
    (sig newf : List Nat) (bs : List (List Nat))
    (hacc : deltaBlocks md5 sha sig newf = Except.ok bs)
    (hpos : 0 < unpack32 ((sig.drop 11).take 4)) :
    bs.head? = some (magicDlt ++ pack32 2 ++ (sig.drop 11).take 4)
    ∧ bs.getLast? = some (72 :: sha newf)
    ∧ (sha newf).length = 32
    ∧ (∀ b ∈ bs.tail.dropLast,
        b.head? = some 67 ∨ b.head? = some 68 ∨ b.head? = some 69) := by
  rw [deltaBlocks] at hacc
  by_cases h1 : sig.take 7 = magicSig
  · rw [if_pos h1] at hacc
    by_cases h2 : ((sig.drop 7).take 4).length = 4
    · rw [if_pos h2] at hacc
      by_cases h3 : unpack32 ((sig.drop 7).take 4) = 2
      · rw [if_pos h3] at hacc
        by_cases h4 : ((sig.drop 11).take 4).length = 4
        · rw [if_pos h4] at hacc
          rw [readBlocksFile_eq, readBlocksFile_eq] at hacc
          have hbs := (Except.ok.injEq _ _).mp hacc
          rw [← hbs]
          refine ⟨by simp [VERSION], ?_, h32 newf, ?_⟩
          · rw [chunksOf_flatten hpos]
            exact List.getLast?_concat _
          · intro b hb
            simp only [List.cons_append, List.tail_cons, List.dropLast_concat] at hb
            obtain ⟨c, _hc, hrfl⟩ := List.mem_map.mp hb
            rw [← hrfl]
            exact emitInstr_head md5 _ _ c
        · rw [if_neg h4] at hacc
          exact absurd hacc (by simp)
      · rw [if_neg h3] at hacc
        exact absurd hacc (by simp)
    · rw [if_neg h2] at hacc
      exact absurd hacc (by simp)
  · rw [if_neg h1] at hacc
    exact absurd hacc (by simp)

theorem delta_stream_shape_witness :
    ([magicDlt ++ pack32 2 ++ pack32 1, [68, 5], 72 :: sha256W [5]] : List (List Nat)).head?
        = some (magicDlt ++ pack32 2
          ++ ((magicSig ++ pack32 2 ++ pack32 1).drop 11).take 4)
    ∧ ([magicDlt ++ pack32 2 ++ pack32 1, [68, 5],
        72 :: sha256W [5]] : List (List Nat)).getLast? = some (72 :: sha256W [5])
    ∧ (sha256W [5]).length = 32
    ∧ (∀ b ∈ ([magicDlt ++ pack32 2 ++ pack32 1, [68, 5],
          72 :: sha256W [5]] : List (List Nat)).tail.dropLast,
        b.head? = some 67 ∨ b.head? = some 68 ∨ b.head? = some 69) :=
  delta_stream_shape md5W sha256W sha256W_length
    (magicSig ++ pack32 2 ++ pack32 1) [5]
    [magicDlt ++ pack32 2 ++ pack32 1, [68, 5], 72 :: sha256W [5]]
    (by
      have h0 : magicSig ++ pack32 2 ++ pack32 1
          = magicSig ++ pack32 2 ++ pack32 1 ++ ([] : List (List Nat)).flatten := by
        simp
      rw [h0, deltaBlocks_produced md5W sha256W [] 1 [5] (by simp) (by norm_num)]
      rw [chunksOf_one 5]
      have hemit : emitInstr md5W (buildTable [] 0) 1 [5] = [68, 5] := by
        rw [emitInstr, buildTable, dictFind]
        simp
      simp [hemit])
    (by decide)

/-- C8: Empty-basis boundary.  A signature built from an empty basis
file (no digests, empty hash table) combined with any new file yields a
delta with no copy instruction: no block of the output starts with the
C tag, and every instruction block between the header and the terminal
checksum starts with the D or E tag. -/
theorem empty_basis_no_copy (md5 sha : List Nat → List Nat) (S : Nat)
    (hS : S < 4294967296) (newf : List Nat) :
    ∃ bs, Except.bind (signatureBlocks md5 [] S)
        (fun sg => deltaBlocks md5 sha sg.flatten newf) = Except.ok bs
      ∧ (∀ b ∈ bs, ¬ b.head? = some 67)
      ∧ (∀ b ∈ bs.tail.dropLast, b.head? = some 68 ∨ b.head? = some 69) := by
  rw [signatureBlocks_eq, except_bind_ok, chunksOf_nil]
  have hsg : ((magicSig ++ pack32 VERSION ++ pack32 S)
        :: ([] : List (List Nat)).map md5).flatten
      = magicSig ++ pack32 2 ++ pack32 S ++ ([] : List (List Nat)).flatten := by
    simp [VERSION, List.append_assoc]
  rw [hsg]
  rw [deltaBlocks_produced md5 sha [] S newf (by simp) hS]
  have hbt : buildTable ([] : List (List Nat)) 0 = [] := rfl
  rw [hbt]
  refine ⟨_, rfl, ?_, ?_⟩
  · intro b hb
    rcases List.mem_cons.mp hb with h1 | h1
    · subst h1
      simp [magicDlt]
    · rcases List.mem_append.mp h1 with h2 | h2
      · obtain ⟨c, _hc, hrfl⟩ := List.mem_map.mp h2
        rw [← hrfl]
        rcases emitInstr_empty_head md5 S c with h | h
        · rw [h]
          simp
        · rw [h]
          simp
      · simp only [List.mem_singleton] at h2
        subst h2
        simp
  · intro b hb
    simp only [List.cons_append, List.tail_cons, List.dropLast_concat] at hb
    obtain ⟨c, _hc, hrfl⟩ := List.mem_map.mp hb
    rw [← hrfl]
    exact emitInstr_empty_head md5 S c

theorem empty_basis_no_copy_witness :
    ∃ bs, Except.bind (signatureBlocks md5W [] 3)
        (fun sg => deltaBlocks md5W sha256W sg.flatten [4, 5]) = Except.ok bs
      ∧ (∀ b ∈ bs, ¬ b.head? = some 67)
      ∧ (∀ b ∈ bs.tail.dropLast, b.head? = some 68 ∨ b.head? = some 69) :=
  empty_basis_no_copy md5W sha256W 3 (by norm_num) [4, 5]

/-- C7: Block Reader chunk-size invariant.  Over an honest source the
reader never fails; every yielded chunk except possibly the last has
exactly the target length, no chunk exceeds the target length, and a
strictly shorter final chunk occurs only with the source exhausted (the
chunks then concatenate back to the whole source). -/
theorem block_reader_chunk_sizes (t : List Nat) (n : Nat) :
    readBlocksFile t n = Except.ok (chunksOf t n)
    ∧ (∀ c ∈ (chunksOf t n).dropLast, c.length = n)
    ∧ (∀ c ∈ chunksOf t n, c.length ≤ n)
    ∧ (((chunksOf t n).getLast?.getD []).length < n → (chunksOf t n).flatten = t) := by
  refine ⟨readBlocksFile_eq t n, fun c hc => chunksOf_dropLast_length hc,
    fun c hc => chunksOf_mem_length_le hc, ?_⟩
  intro hshort
  by_cases hn : 0 < n
  · exact chunksOf_flatten hn
  · have hn0 : n = 0 := by omega
    subst hn0
    rw [chunksOf_zero] at hshort
    simp at hshort

theorem block_reader_chunk_sizes_witness :
    readBlocksFile [1, 2, 3] 2 = Except.ok (chunksOf [1, 2, 3] 2)
    ∧ (∀ c ∈ (chunksOf [1, 2, 3] 2).dropLast, c.length = 2)
    ∧ (∀ c ∈ chunksOf [1, 2, 3] 2, c.length ≤ 2)
    ∧ (((chunksOf [1, 2, 3] 2).getLast?.getD []).length < 2 →
        (chunksOf [1, 2, 3] 2).flatten = [1, 2, 3]) :=
  block_reader_chunk_sizes [1, 2, 3] 2

/-- C9: No range validation on copy instructions.  A C instruction
whose block index times block size lies at or beyond the end of the
basis raises no error: patch seeks there, reads nothing, appends the
empty read to the output chunks and the running checksum unchanged, and
continues with the rest of the stream, so such a copy can only be
caught by the final checksum comparison. -/
theorem copy_no_range_check (sha : List Nat → List Nat) (basis : List Nat)
    (S idx : Nat) (rest : List Nat) (out : List (List Nat)) (hacc : List Nat)
    (hidx : idx < 4294967296) (hout : basis.length ≤ idx * S) :
    patchLoop sha basis S ((67 :: pack32 idx) ++ rest) out hacc =
      patchLoop sha basis S rest (out ++ [[]]) hacc := by
  have hshape : (67 :: pack32 idx) ++ rest = 67 :: (pack32 idx ++ rest) := rfl
  rw [hshape, patchLoop]
  rw [List.take_left' (pack32_length idx), List.drop_left' (pack32_length idx)]
  rw [if_pos rfl, if_pos (pack32_length idx), unpack32_pack32 hidx]
  have hdrop : basis.drop (idx * S) = [] := List.drop_eq_nil_iff.mpr hout
  rw [hdrop]
  simp

theorem copy_no_range_check_witness :
    patchLoop sha256W [1, 2] 2 ((67 :: pack32 3) ++ [72]) [] [] =
      patchLoop sha256W [1, 2] 2 [72] [[]] [] :=
  copy_no_range_check sha256W [1, 2] 2 3 [72] [] [] (by norm_num) (by norm_num)

/-- C5 (amended): Bounded short-read retry.  The chunk-fill loop fails
with the incomplete-read error exactly when the source supplies eleven
consecutive non-empty partial reads within one chunk, that is, when
after ten short reads the chunk is still below the target and an
eleventh read returns more data (this raises even when the eleventh
read completes the chunk); if instead a read returns nothing the
incomplete chunk is yielded without error. -/
theorem short_read_retry_iff (n : Nat) (data : List Nat) (s : List (List Nat)) :
    fillBlockScript n data s 0 = Except.error Err.incompleteBlockRead ↔
      11 ≤ retryReads n data s := by
  have h := fillBlockScript_error_iff_aux s n data 0 (by omega)
  simpa using h

/-- Helper to evaluate the script reader one chunk at a time. -/
theorem readBlocksScript_cons_eq (n : Nat) (e : List Nat) (rest : List (List Nat))
    (block : List Nat) (s2 : List (List Nat))
    (hne : e.take n ≠ []) (hf : fillBlockScript n (e.take n) rest 0 = Except.ok (block, s2)) :
    readBlocksScript n (e :: rest) =
      match readBlocksScript n s2 with
      | Except.error er => Except.error er
      | Except.ok bs => Except.ok (block :: bs) := by
  rw [readBlocksScript]
  rw [if_neg hne]
  split
  · next heq =>
    rw [hf] at heq
    cases heq
  · next b2 s3 heq =>
    rw [hf] at heq
    cases heq
    rfl

/-- C5 counterexample: a source that answers a 12-byte chunk request
with one short byte and then ten more short single-byte reads, followed
by end of input.  After ten consecutive short reads the chunk is still
incomplete, yet the reader does not fail: the eleventh read returns
nothing, so the eleven accumulated bytes are yielded as a short chunk. -/
theorem short_read_budget_cex :
    readBlocksScript 12 (List.replicate 11 [0]) = Except.ok [List.replicate 11 0]
    ∧ readBlocksScript 12 (List.replicate 11 [0]) ≠
        Except.error Err.incompleteBlockRead := by
  have hrepl : List.replicate 11 ([0] : List Nat) = [0] :: List.replicate 10 [0] := rfl
  have hne : (([0] : List Nat)).take 12 ≠ [] := by decide
  have hf : fillBlockScript 12 (([0] : List Nat).take 12) (List.replicate 10 [0]) 0 =
      Except.ok (List.replicate 11 0, []) := rfl
  have hmain : readBlocksScript 12 (List.replicate 11 [0]) =
      Except.ok [List.replicate 11 0] := by
    rw [hrepl, readBlocksScript_cons_eq 12 [0] (List.replicate 10 [0])
      (List.replicate 11 0) [] hne hf]
    rw [readBlocksScript]
  refine ⟨hmain, ?_⟩
  rw [hmain]
  intro h
  cases h

theorem chunksOf_pair (a b : Nat) : chunksOf [a, b] 1 = [[a], [b]] := by
  rw [chunksOf_of_ne _ _ (by simp)]
  simp [chunksOf_one]

/-- C3 counterexample: a signature whose two blocks carry the same
digest.  The claim predicts that a matching new-file block is encoded
as a copy of index 0 (first occurrence); the delta generator actually
emits a copy of index 1, because the second dict insertion overwrote
the first. -/
theorem dup_block_first_wins_cex :
    deltaBlocks md5W sha256W
        (magicSig ++ pack32 2 ++ pack32 1 ++ (md5W [7] ++ md5W [7])) [7]
      = Except.ok [magicDlt ++ pack32 2 ++ pack32 1, 67 :: pack32 1, 72 :: sha256W [7]]
    ∧ (67 :: pack32 1) ≠ (67 :: pack32 0) := by
  constructor
  · have h0 : magicSig ++ pack32 2 ++ pack32 1 ++ (md5W [7] ++ md5W [7])
        = magicSig ++ pack32 2 ++ pack32 1
          ++ ([md5W [7], md5W [7]] : List (List Nat)).flatten := by
      simp
    rw [h0, deltaBlocks_produced md5W sha256W [md5W [7], md5W [7]] 1 [7]
      (by
        intro d hd
        rcases List.mem_cons.mp hd with h | h
        · rw [h]; exact md5W_length [7]
        · simp only [List.mem_singleton] at h
          rw [h]; exact md5W_length [7])
      (by norm_num)]
    rw [chunksOf_one 7]
    have hfind : dictFind (md5W [7]) (buildTable [md5W [7], md5W [7]] 0) = some 1 := by
      rw [buildTable, buildTable, buildTable]
      simp only [List.nil_append, List.cons_append]
      rw [dictFind, if_pos rfl]
    have hemit : emitInstr md5W (buildTable [md5W [7], md5W [7]] 0) 1 [7]
        = 67 :: pack32 1 := by
      rw [emitInstr, hfind]
    simp [hemit]
  · decide

/-- C3 (amended): Last-occurrence-wins on duplicate basis blocks.  The
hash table maps a digest to the greatest basis block index bearing it,
because each dict insertion overwrites the previous entry for the same
key; every copy instruction emitted for a matching new-file block hence
references the last basis block index with that digest, and earlier
duplicates are shadowed and never referenced. -/
theorem dup_block_last_wins (md5 : List Nat → List Nat) (ds : List (List Nat))
    (S : Nat) (b : List Nat) (j : Nat)
    (hj : j < ds.length) (hget : ds.getD j [] = md5 b)
    (hlast : ∀ k, j < k → k < ds.length → ds.getD k [] ≠ md5 b) :
    emitInstr md5 (buildTable ds 0) S b = 67 :: pack32 j := by
  rw [emitInstr]
  have hfind := buildTable_find_last ds 0 (md5 b) j hj hget hlast
  rw [hfind]
  simp

theorem dup_block_last_wins_witness :
    emitInstr md5W (buildTable [md5W [7], md5W [7]] 0) 1 [7] = 67 :: pack32 1 :=
  dup_block_last_wins md5W [md5W [7], md5W [7]] 1 [7] 1
    (by norm_num) rfl
    (fun k hk1 hk2 => by
      simp only [List.length_cons, List.length_nil] at hk2
      omega)

theorem patchLoop_trunc_aux (sha : List Nat → List Nat)
    (h32 : ∀ x, (sha x).length = 32) (basis : List Nat) (S : Nat) :
    ∀ N body, (body : List Nat).length ≤ N → truncBody S body = true →
    ∀ out hacc, patchLoop sha basis S body out hacc = Except.error Err.hashMismatch := by
  intro N
  induction N with
  | zero =>
    intro body hlen htr out hacc
    have hbody : body = [] := by
      cases body with
      | nil => rfl
      | cons a l => simp at hlen
    subst hbody
    rw [patchLoop]
    have hne : sha hacc ≠ [] := by
      intro hh
      have := h32 hacc
      rw [hh] at this
      simp at this
    rw [if_neg hne]
  | succ N ih =>
    intro body hlen htr out hacc
    cases body with
    | nil =>
      rw [patchLoop]
      have hne : sha hacc ≠ [] := by
        intro hh
        have := h32 hacc
        rw [hh] at this
        simp at this
      rw [if_neg hne]
    | cons t rest =>
      rw [truncBody] at htr
      rw [patchLoop]
      by_cases h67 : t = 67
      · rw [if_pos h67] at htr ⊢
        simp only [Bool.and_eq_true, decide_eq_true_eq] at htr
        obtain ⟨hg, htr2⟩ := htr
        rw [if_pos (by simp [List.length_take]; omega)]
        apply ih
        · simp only [List.length_drop]
          simp only [List.length_cons] at hlen
          omega
        · exact htr2
      · rw [if_neg h67] at htr ⊢
        by_cases h68 : t = 68
        · rw [if_pos h68] at htr ⊢
          simp only [Bool.and_eq_true, decide_eq_true_eq] at htr
          obtain ⟨hg, htr2⟩ := htr
          apply ih
          · simp only [List.length_drop]
            simp only [List.length_cons] at hlen
            omega
          · exact htr2
        · rw [if_neg h68] at htr ⊢
          by_cases h69 : t = 69
          · rw [if_pos h69] at htr ⊢
            simp only [Bool.and_eq_true, decide_eq_true_eq] at htr
            obtain ⟨⟨hg1, hg2⟩, htr2⟩ := htr
            rw [if_pos (by simp [List.length_take]; omega)]
            apply ih
            · simp only [List.length_drop]
              simp only [List.length_cons] at hlen
              omega
            · exact htr2
          · rw [if_neg h69] at htr
            simp at htr

/-- C4 (amended): Truncation outcome.  The source has no dedicated
truncated-stream error: a delta stream with a valid header that ends at
an instruction boundary without any H tag makes patch run off the end
of the stream, break out of the loop, and fail the terminal comparison
of the 32-byte running digest against the still-empty target, so the
failure is the hash-mismatch error, not a distinct truncation error. -/
theorem truncated_fails_hash_mismatch (sha : List Nat → List Nat)
    (h32 : ∀ x, (sha x).length = 32) (basis ds : List Nat)
    (hmag : ds.take 7 = magicDlt) (hver : (ds.drop 7).take 4 = pack32 2)
    (hlen : 15 ≤ ds.length)
    (htr : truncBody (unpack32 ((ds.drop 11).take 4)) (ds.drop 15) = true) :
    patchBlocks sha basis ds = Except.error Err.hashMismatch := by
  rw [patchBlocks, hmag, if_pos rfl, hver]
  rw [if_pos (pack32_length 2), if_pos (unpack32_pack32 (by norm_num))]
  rw [if_pos (by simp [List.length_take, List.length_drop]; omega)]
  exact patchLoop_trunc_aux sha h32 basis (unpack32 ((ds.drop 11).take 4))
    (ds.drop 15).length (ds.drop 15) le_rfl htr [] []

theorem truncated_fails_hash_mismatch_witness :
    patchBlocks sha256W [9] (magicDlt ++ pack32 2 ++ pack32 4 ++ [68, 1, 2, 3, 4]) =
      Except.error Err.hashMismatch :=
  truncated_fails_hash_mismatch sha256W sha256W_length [9]
    (magicDlt ++ pack32 2 ++ pack32 4 ++ [68, 1, 2, 3, 4])
    (by decide) (by decide) (by decide)
    (by
      have hdrop : (magicDlt ++ pack32 2 ++ pack32 4 ++ [68, 1, 2, 3, 4]).drop 15
          = [68, 1, 2, 3, 4] := by decide
      have hbs : unpack32 (((magicDlt ++ pack32 2 ++ pack32 4
          ++ [68, 1, 2, 3, 4]).drop 11).take 4) = 4 := by decide
      rw [hdrop, hbs, truncBody]
      have hrest : ([1, 2, 3, 4] : List Nat).drop 4 = [] := by decide
      rw [if_neg (by decide), if_pos rfl, hrest, truncBody]
      decide)

/-- C4 counterexample: a delta stream consisting of a valid header and
nothing else ends before any H tag, and patch fails with the
hash-mismatch error rather than a dedicated truncated-stream error. -/
theorem truncated_error_cex :
    patchBlocks sha256W [] (magicDlt ++ pack32 2 ++ pack32 4) =
        Except.error Err.hashMismatch
    ∧ Err.hashMismatch ≠ Err.truncatedDeltaStream := by
  constructor
  · have h0 : magicDlt ++ pack32 2 ++ pack32 4
        = magicDlt ++ pack32 2 ++ pack32 4 ++ [] := by simp
    obtain ⟨ht7, htv, htc, htr⟩ :=
      headerSplit magicDlt (pack32 2) (pack32 4) [] rfl rfl rfl
    rw [h0, patchBlocks, ht7, htv, htc, htr]
    rw [if_pos rfl, if_pos (pack32_length 2), if_pos (unpack32_pack32 (by norm_num))]
    rw [if_pos (pack32_length 4)]
    rw [patchLoop]
    rw [if_neg (by
      intro hh
      have := sha256W_length []
      rw [hh] at this
      simp at this)]
  · decide

theorem patchLoop_wf_suffix_aux (sha : List Nat → List Nat) (basis : List Nat) (S : Nat) :
    ∀ N body, (body : List Nat).length ≤ N → wfBody S body = true →
    ∀ (suffix : List Nat) (out : List (List Nat)) (hacc : List Nat),
      patchLoop sha basis S (body ++ suffix) out hacc =
        patchLoop sha basis S body out hacc := by
  intro N
  induction N with
  | zero =>
    intro body hlen hwf suffix out hacc
    have hbody : body = [] := by
      cases body with
      | nil => rfl
      | cons a l => simp at hlen
    subst hbody
    rw [wfBody] at hwf
    cases hwf
  | succ N ih =>
    intro body hlen hwf suffix out hacc
    cases body with
    | nil =>
      rw [wfBody] at hwf
      cases hwf
    | cons t rest =>
      rw [wfBody] at hwf
      simp only [List.cons_append]
      rw [patchLoop, patchLoop]
      simp only [List.length_cons] at hlen
      by_cases h67 : t = 67
      · rw [if_pos h67] at hwf ⊢
        rw [if_pos h67]
        simp only [Bool.and_eq_true, decide_eq_true_eq] at hwf
        obtain ⟨hg, hwf2⟩ := hwf
        have et : (rest ++ suffix).take 4 = rest.take 4 :=
          List.take_append_of_le_length hg
        have ed : (rest ++ suffix).drop 4 = rest.drop 4 ++ suffix :=
          List.drop_append_of_le_length hg
        rw [et, ed]
        by_cases hc : (rest.take 4).length = 4
        · rw [if_pos hc, if_pos hc]
          apply ih
          · simp only [List.length_drop]
            omega
          · exact hwf2
        · rw [if_neg hc, if_neg hc]
      · rw [if_neg h67] at hwf ⊢
        rw [if_neg h67]
        by_cases h68 : t = 68
        · rw [if_pos h68] at hwf ⊢
          rw [if_pos h68]
          simp only [Bool.and_eq_true, decide_eq_true_eq] at hwf
          obtain ⟨hg, hwf2⟩ := hwf
          have et : (rest ++ suffix).take S = rest.take S :=
            List.take_append_of_le_length hg
          have ed : (rest ++ suffix).drop S = rest.drop S ++ suffix :=
            List.drop_append_of_le_length hg
          rw [et, ed]
          apply ih
          · simp only [List.length_drop]
            omega
          · exact hwf2
        · rw [if_neg h68] at hwf ⊢
          rw [if_neg h68]
          by_cases h69 : t = 69
          · rw [if_pos h69] at hwf ⊢
            rw [if_pos h69]
            simp only [Bool.and_eq_true, decide_eq_true_eq] at hwf
            obtain ⟨⟨hg1, hg2⟩, hwf2⟩ := hwf
            have et : (rest ++ suffix).take 4 = rest.take 4 :=
              List.take_append_of_le_length hg1
            have ed : (rest ++ suffix).drop 4 = rest.drop 4 ++ suffix :=
              List.drop_append_of_le_length hg1
            have eL : ((rest.drop 4) ++ suffix).take (unpack32 (rest.take 4)) =
                (rest.drop 4).take (unpack32 (rest.take 4)) :=
              List.take_append_of_le_length (by simp [List.length_drop]; omega)
            have eD : (rest ++ suffix).drop (4 + unpack32 (rest.take 4)) =
                rest.drop (4 + unpack32 (rest.take 4)) ++ suffix :=
              List.drop_append_of_le_length hg2
            rw [et, ed, eL, eD]
            by_cases hc : (rest.take 4).length = 4
            · rw [if_pos hc, if_pos hc]
              apply ih
              · simp only [List.length_drop]
                omega
              · exact hwf2
            · rw [if_neg hc, if_neg hc]
          · rw [if_neg h69] at hwf ⊢
            rw [if_neg h69]
            by_cases h72 : t = 72
            · rw [if_pos h72] at hwf ⊢
              rw [if_pos h72]
              simp only [decide_eq_true_eq] at hwf
              have et : (rest ++ suffix).take 32 = rest.take 32 :=
                List.take_append_of_le_length (by omega)
              rw [et]
            · rw [if_neg h72] at hwf
              cases hwf

/-- C10: Trailing bytes after the delta are never read.  Patch stops
reading immediately after the 32 digest bytes of the first H
instruction, so for every valid delta stream and every byte suffix
appended to it, patching against any basis yields exactly the same
result as patching the original stream. -/
theorem patch_ignores_trailing_bytes (sha : List Nat → List Nat)
    (ds suffix basis : List Nat) (hval : validDelta ds = true) :
    patchBlocks sha basis (ds ++ suffix) = patchBlocks sha basis ds := by
  rw [validDelta] at hval
  simp only [Bool.and_eq_true, decide_eq_true_eq] at hval
  obtain ⟨⟨⟨h7, hv⟩, hl⟩, hwf⟩ := hval
  have e7 : (ds ++ suffix).take 7 = ds.take 7 :=
    List.take_append_of_le_length (by omega)
  have ev : ((ds ++ suffix).drop 7).take 4 = (ds.drop 7).take 4 := by
    rw [List.drop_append_of_le_length (by omega)]
    exact List.take_append_of_le_length (by simp [List.length_drop]; omega)
  have ec : ((ds ++ suffix).drop 11).take 4 = (ds.drop 11).take 4 := by
    rw [List.drop_append_of_le_length (by omega)]
    exact List.take_append_of_le_length (by simp [List.length_drop]; omega)
  have e15 : (ds ++ suffix).drop 15 = ds.drop 15 ++ suffix :=
    List.drop_append_of_le_length (by omega)
  rw [patchBlocks, patchBlocks, e7, ev, ec, e15, h7, hv]
  rw [if_pos rfl, if_pos (pack32_length 2), if_pos (unpack32_pack32 (by norm_num))]
  rw [if_pos (by simp [List.length_take, List.length_drop]; omega)]
  rw [if_pos rfl, if_pos (pack32_length 2), if_pos (unpack32_pack32 (by norm_num))]
  rw [if_pos (by simp [List.length_take, List.length_drop]; omega)]
  exact patchLoop_wf_suffix_aux sha basis (unpack32 ((ds.drop 11).take 4))
    (ds.drop 15).length (ds.drop 15) le_rfl hwf suffix [] []

theorem patch_ignores_trailing_bytes_witness :
    patchBlocks sha256W [8]
        ((magicDlt ++ pack32 2 ++ pack32 1
          ++ (69 :: pack32 1 ++ [5]) ++ (72 :: List.replicate 32 0)) ++ [9, 9, 9]) =
      patchBlocks sha256W [8]
        (magicDlt ++ pack32 2 ++ pack32 1
          ++ (69 :: pack32 1 ++ [5]) ++ (72 :: List.replicate 32 0)) :=
  patch_ignores_trailing_bytes sha256W
    (magicDlt ++ pack32 2 ++ pack32 1
      ++ (69 :: pack32 1 ++ [5]) ++ (72 :: List.replicate 32 0))
    [9, 9, 9] [8]
    (by
      rw [validDelta]
      have hdrop : (magicDlt ++ pack32 2 ++ pack32 1
          ++ (69 :: pack32 1 ++ [5]) ++ (72 :: List.replicate 32 0)).drop 15
          = 69 :: (pack32 1 ++ ([5] ++ (72 :: List.replicate 32 0))) := by decide
      have hbs : unpack32 (((magicDlt ++ pack32 2 ++ pack32 1
          ++ (69 :: pack32 1 ++ [5]) ++ (72 :: List.replicate 32 0)).drop 11).take 4)
          = 1 := by decide
      rw [hdrop, hbs, wfBody]
      have hd5 : (pack32 1 ++ ([5] ++ (72 :: List.replicate 32 0))).drop
          (4 + unpack32 ((pack32 1 ++ ([5] ++ (72 :: List.replicate 32 0))).take 4))
          = 72 :: List.replicate 32 0 := by decide
      rw [if_neg (by decide), if_neg (by decide), if_pos rfl, hd5, wfBody]
      decide)

end Bdiff
